import Mathlib

/-!
Shallow embedding of the khoj repository's two source files:
`src/processor/markdown/markdown_to_jsonl.py` and `src/search_type/text_search.py`.
File contents are modelled as `List Char`, Python floats as `ℤ` (only their
ordering matters to the properties considered), Python integer sets as
ascending lists of naturals (CPython iterates a set that was built from
`range(n)` and only shrunk by `intersection_update` in ascending order),
and external-library calls (torch, sentence-transformers, json, gzip) as
opaque function parameters or as direct models of their documented behaviour.
-/

/-! ### Markdown → JSONL converter (`markdown_to_jsonl.py`) -/

/-- Modelled from the spec: the constant `empty_escape_sequences` lives in
`src/utils/constants.py`, which is not part of the provided sources.  The spec
says each segment has "leading/trailing whitespace/escape characters"
discarded, so we model the constant as the whitespace/escape characters. -/
def empty_escape_sequences : List Char := ['\n', '\t', '\r', ' ']

/-- Python `str.strip(chars)`: drop from both ends every character in `cs`. -/
def stripChars (cs : List Char) (l : List Char) : List Char :=
  ((l.dropWhile (fun c => c ∈ cs)).reverse.dropWhile (fun c => c ∈ cs)).reverse

/-- Helper for `re.split(r'^#', s, flags=re.MULTILINE)`: returns the first
segment (text up to the next match) and the list of remaining segments.
The boolean records whether the current position is at the start of a line. -/
def reSplitHashAux : Bool → List Char → List Char × List (List Char)
  | _, [] => ([], [])
  | lineStart, c :: rest =>
    if lineStart ∧ c = '#' then
      let r := reSplitHashAux false rest
      ([], r.1 :: r.2)
    else
      let r := reSplitHashAux (c = '\n') rest
      (c :: r.1, r.2)

/-- `re.split(r'^#', s, flags=re.MULTILINE)`: split at every `#` that sits at
the start of a line (string start or right after a newline), consuming it. -/
def reSplitHash (lineStart : Bool) (cs : List Char) : List (List Char) :=
  (reSplitHashAux lineStart cs).1 :: (reSplitHashAux lineStart cs).2

/-- Number of `^#` matches (`re.MULTILINE`), i.e. lines beginning with `#`. -/
def countHeadings : Bool → List Char → ℕ
  | _, [] => 0
  | lineStart, c :: rest =>
    if lineStart ∧ c = '#' then 1 + countHeadings false rest
    else countHeadings (c = '\n') rest

/-- Helper for splitting a text into its lines at `'\n'`. -/
def linesAux : List Char → List Char × List (List Char)
  | [] => ([], [])
  | c :: rest =>
    if c = '\n' then
      let r := linesAux rest
      ([], r.1 :: r.2)
    else
      let r := linesAux rest
      (c :: r.1, r.2)

/-- The lines of a text (separator `'\n'`, as Python's `splitlines`-free
reading of "lines beginning with `#`"; a trailing fragment is a line). -/
def linesOf (cs : List Char) : List (List Char) :=
  (linesAux cs).1 :: (linesAux cs).2

/-- How many of the given lines begin with the character `#`. -/
def hashLineCount (ll : List (List Char)) : ℕ :=
  (ll.filter (fun l => l.head? = some '#')).length

/-- The number of lines of a text that begin with the character `#`. -/
def countHashLines (cs : List Char) : ℕ :=
  hashLineCount (linesOf cs)

/-- Whether there is (nonempty) content before the first heading line. -/
def hasLeadingContent (cs : List Char) : Bool :=
  !(((reSplitHash true cs).headD []).isEmpty)

/-- The entries one Markdown file's content is split into:
`[f'#{entry.strip(empty_escape_sequences)}' for entry in re.split(r'^#', content, flags=re.MULTILINE)]`. -/
def markdownEntriesOfContent (content : List Char) : List (List Char) :=
  (reSplitHash true content).map (fun entry => '#' :: stripChars empty_escape_sequences entry)

/-- `extract_markdown_entries`: file reading is purified, so a file is a
`(path, content)` pair.  For each file the split entries are appended to
`entries` and the file's path is appended once per entry to
`entry_to_file_map`. -/
def extract_markdown_entries : List (String × List Char) → List (List Char) × List String
  | [] => ([], [])
  | (path, content) :: rest =>
    let es := markdownEntriesOfContent content
    let r := extract_markdown_entries rest
    (es ++ r.1, List.replicate es.length path ++ r.2)

/-- The dictionary built per entry by `convert_markdown_entries_to_jsonl`:
`{'compiled': entry, 'raw': entry, 'file': f'{entry_to_file_map[entry_id]}'}`. -/
structure EntryDict where
  compiled : List Char
  raw : List Char
  file : String
deriving DecidableEq, Repr

/-- Builds the per-entry dictionary (both text fields hold the entry). -/
def entry_dict (entry : List Char) (file : String) : EntryDict :=
  { compiled := entry, raw := entry, file := file }

/-- An opening curly brace character (codepoint 123). -/
def lbrace : Char := Char.ofNat 123

/-- A closing curly brace character (codepoint 125). -/
def rbrace : Char := Char.ofNat 125

/-- Lower-case hexadecimal digit, as used by `json.dumps` for `\u00XX`. -/
def hexDigit (n : ℕ) : Char :=
  if n < 10 then Char.ofNat (48 + n) else Char.ofNat (87 + n)

/-- `json.dumps` (with `ensure_ascii=False`) escaping of one character. -/
def jsonEscapeChar (c : Char) : List Char :=
  if c = '"' then ['\\', '"']
  else if c = '\\' then ['\\', '\\']
  else if c = '\n' then ['\\', 'n']
  else if c = '\r' then ['\\', 'r']
  else if c = '\t' then ['\\', 't']
  else if c = Char.ofNat 8 then ['\\', 'b']
  else if c = Char.ofNat 12 then ['\\', 'f']
  else if c.toNat < 32 then ['\\', 'u', '0', '0', hexDigit (c.toNat / 16), hexDigit (c.toNat % 16)]
  else [c]

/-- A JSON string literal for `s`. -/
def jsonString (s : List Char) : List Char :=
  '"' :: (s.flatMap jsonEscapeChar) ++ ['"']

/-- `json.dumps(entry_dict, ensure_ascii=False)` with Python's default
separators; dictionary insertion order is `compiled`, `raw`, `file`. -/
def dumps (d : EntryDict) : List Char :=
  [lbrace] ++ jsonString ("compiled").data ++ (": ").data ++ jsonString d.compiled
    ++ (", ").data ++ jsonString ("raw").data ++ (": ").data ++ jsonString d.raw
    ++ (", ").data ++ jsonString ("file").data ++ (": ").data ++ jsonString d.file.data
    ++ [rbrace]

/-- `convert_markdown_entries_to_jsonl`: builds one JSON line per entry by a
left fold over `enumerate(entries)`, indexing `entry_to_file_map[entry_id]`
(an out-of-range index is Python's `IndexError`, hence `Option`). -/
def convert_markdown_entries_to_jsonl (entries : List (List Char))
    (entry_to_file_map : List String) : Option (List Char) :=
  entries.enum.foldlM
    (fun jsonl ie =>
      (entry_to_file_map.get? ie.1).map
        (fun f => jsonl ++ dumps (entry_dict ie.2 f) ++ ['\n']))
    []

/-- Modelled from the spec: `is_none_or_empty` lives in `src/utils/helpers.py`,
absent from the provided sources; the spec says the converter "exits with
status 1 if neither input option is given", so absent or empty means empty. -/
def is_none_or_empty_files (x : Option (List String)) : Bool :=
  x.isNone || (x.getD []).isEmpty

/-- Modelled from the spec: the string variant of `is_none_or_empty`. -/
def is_none_or_empty_str (x : Option String) : Bool :=
  x.isNone || (x.getD "").isEmpty

/-- `pathlib.PurePath.suffix`: the final component's extension from its last
dot, empty when the dot is absent, leading, or trailing. -/
def path_suffix (p : String) : String :=
  let name := (p.data.reverse.takeWhile (fun c => c ≠ '/')).reverse
  let k := (name.reverse.takeWhile (fun c => c ≠ '.')).length
  if 0 < k ∧ k + 1 < name.length then
    String.mk ((name.reverse.take (k + 1)).reverse)
  else
    ""

/-- The converter's interaction with the outside world: path resolution and
globbing (`src/utils/helpers.py` / `glob`), file reading, and gzip
compression (`src/utils/jsonl.py`), all opaque. -/
structure FileEnv where
  abs_path : String → String
  glob : String → List String
  read : String → Option (List Char)
  gzip : List Char → List Char

/-- `get_markdown_files`: union of the resolved explicit files and the glob
results (Python uses sets; only membership matters downstream, and the
warning about non-markdown extensions is log-only). -/
def get_markdown_files (env : FileEnv) (markdown_files : Option (List String))
    (markdown_file_filter : Option String) : List String :=
  let absolute_markdown_files :=
    (markdown_files.getD []).map env.abs_path
  let filtered_markdown_files :=
    match markdown_file_filter with
    | some flt => env.glob (env.abs_path flt)
    | none => []
  (absolute_markdown_files ++ filtered_markdown_files).dedup

/-- Reads every file of the list; `none` as soon as one is missing. -/
def read_all (env : FileEnv) (files : List String) :
    Option (List (String × List Char)) :=
  files.mapM (fun f => (env.read f).map (fun c => (f, c)))

/-- How an invocation of the converter can abort. -/
inductive MdError where
  | exitCode : ℕ → MdError
  | fileNotFound : MdError
  | indexError : MdError
deriving DecidableEq, Repr

/-- `markdown_to_jsonl`: validates input options, collects the files,
extracts entries, converts to a JSONL string, and writes it when the output
suffix is `.gz` (gzipped) or `.jsonl` (plain).  The result pairs the writes
performed (path, bytes) with the returned entries. -/
def markdown_to_jsonl (env : FileEnv) (markdown_files : Option (List String))
    (markdown_file_filter : Option String) (output_file : String) :
    Except MdError (List (String × List Char) × List (List Char)) :=
  if is_none_or_empty_files markdown_files ∧ is_none_or_empty_str markdown_file_filter then
    .error (.exitCode 1)
  else
    match read_all env (get_markdown_files env markdown_files markdown_file_filter) with
    | none => .error .fileNotFound
    | some pairs =>
      let er := extract_markdown_entries pairs
      match convert_markdown_entries_to_jsonl er.1 er.2 with
      | none => .error .indexError
      | some jsonl_data =>
        let writes :=
          if path_suffix output_file = ".gz" then [(output_file, env.gzip jsonl_data)]
          else if path_suffix output_file = ".jsonl" then [(output_file, jsonl_data)]
          else []
        .ok (writes, er.1)

/-! ### Text search (`text_search.py`) -/

/-- One corpus entry as loaded from the JSONL file. -/
structure Entry where
  compiled : String
  raw : String
  file : String
deriving DecidableEq, Repr

/-- One retrieval hit: `{'corpus_id': …, 'score': …}`, with the optional
`'cross-score'` key added by reranking.  Scores are modelled in `ℤ` (only
their ordering matters). -/
structure Hit where
  corpus_id : ℕ
  score : ℤ
  cross_score : Option ℤ
deriving DecidableEq, Repr

/-- A metadata filter (`src/search_filter/base_filter.py` interface):
`can_filter` inspects the query, `apply` rewrites the query and returns the
set of entry indices it keeps (a Python set; only membership is used). -/
structure BaseFilter where
  can_filter : String → Bool
  apply : String → List Entry → String × List ℕ

/-- The loaded search model (`src/utils/config.py`'s `TextSearchModel`):
entries, their embedding tensor (one row per entry), the two encoders, the
filters and `top_k`.  The embedding type `Emb` is abstract; the bi-encoder's
`encode` maps a batch of texts to a batch of embeddings and the
cross-encoder's `predict` scores a (query, passage) pair. -/
structure TextSearchModel (Emb : Type) where
  entries : List Entry
  corpus_embeddings : List Emb
  bi_encoder : List String → List Emb
  cross_encoder : String → String → ℤ
  filters : List BaseFilter
  top_k : ℕ

/-- The external vector primitives used by `text_search.py`
(`sentence_transformers.util`): embedding normalization and the dot-product
score, both opaque. -/
structure SearchLib (Emb : Type) where
  normalize : List Emb → List Emb
  dot : Emb → Emb → ℤ

/-- Descending order on bi-encoder scores: the key comparison of
`hits.sort(key=lambda x: x['score'], reverse=True)`. -/
def scoreDescRel (a b : Hit) : Prop := b.score ≤ a.score

instance : DecidableRel scoreDescRel :=
  fun a b => inferInstanceAs (Decidable (b.score ≤ a.score))

instance : IsTotal Hit scoreDescRel := ⟨fun a b => le_total b.score a.score⟩

instance : IsTrans Hit scoreDescRel := ⟨fun _ _ _ h1 h2 => le_trans h2 h1⟩

/-- The value Python reads at `hit['cross-score']` (every reranked hit has
the key, so the default is never observed). -/
def crossKey (h : Hit) : ℤ := h.cross_score.getD 0

/-- Descending order on cross-encoder scores: the key comparison of
`hits.sort(key=lambda x: x['cross-score'], reverse=True)`. -/
def crossDescRel (a b : Hit) : Prop := crossKey b ≤ crossKey a

instance : DecidableRel crossDescRel :=
  fun a b => inferInstanceAs (Decidable (crossKey b ≤ crossKey a))

instance : IsTotal Hit crossDescRel := ⟨fun a b => le_total (crossKey b) (crossKey a)⟩

instance : IsTrans Hit crossDescRel := ⟨fun _ _ _ h1 h2 => le_trans h2 h1⟩

/-- Descending cross-encoder score, with ties broken by descending
bi-encoder score. -/
def rankedRel (a b : Hit) : Prop :=
  crossKey b ≤ crossKey a ∧ (crossKey a ≤ crossKey b → b.score ≤ a.score)

instance : IsTrans Hit rankedRel :=
  ⟨fun _ _ _ h1 h2 =>
    ⟨le_trans h2.1 h1.1, fun hle =>
      le_trans (h2.2 (le_trans h1.1 hle)) (h1.2 (le_trans hle h2.1))⟩⟩

/-- `sentence_transformers.util.semantic_search` (documented behaviour): for
each query embedding, score every corpus row with `dot`, order the hits by
descending score and keep the `top_k` best. -/
def semantic_search {Emb : Type} (dot : Emb → Emb → ℤ) (queries : List Emb)
    (corpus : List Emb) (top_k : ℕ) : List (List Hit) :=
  queries.map (fun q =>
    (List.insertionSort scoreDescRel
      (corpus.enum.map (fun ie => { corpus_id := ie.1, score := dot q ie.2, cross_score := none }))).take top_k)

/-- The filter loop of `query`: each applicable filter rewrites the query and
the kept index set is intersected with the filter's index set. -/
def applyFilters (entries : List Entry) :
    List BaseFilter → String × List ℕ → String × List ℕ
  | [], acc => acc
  | f :: fs, acc =>
    let r := f.apply acc.1 entries
    applyFilters entries fs (r.1, acc.2.filter (fun i => i ∈ r.2))

/-- The query/index-set pair after running every applicable filter, starting
from the raw query and `set(range(len(entries)))`. -/
def filterStage {Emb : Type} (raw_query : String) (m : TextSearchModel Emb) :
    String × List ℕ :=
  applyFilters m.entries (m.filters.filter (fun f => f.can_filter raw_query))
    (raw_query, List.range m.entries.length)

/-- The candidate indices surviving all filters (ascending, as CPython
iterates this set). -/
def narrowed_indices {Emb : Type} (raw_query : String) (m : TextSearchModel Emb) : List ℕ :=
  (filterStage raw_query m).2

/-- `entries = [entries[id] for id in included_entry_indices]`. -/
def narrowed_entries {Emb : Type} (raw_query : String) (m : TextSearchModel Emb) : List Entry :=
  (narrowed_indices raw_query m).filterMap (fun i => m.entries.get? i)

/-- `torch.index_select(corpus_embeddings, 0, torch.tensor(list(included_entry_indices)))`. -/
def narrowed_corpus {Emb : Type} (raw_query : String) (m : TextSearchModel Emb) : List Emb :=
  (narrowed_indices raw_query m).filterMap (fun i => m.corpus_embeddings.get? i)

/-- The bi-encoder retrieval step of `query`: encode the filtered query,
normalize, and run `semantic_search` over the narrowed corpus (`[0]` picks
the first query's hit list). -/
def raw_hits {Emb : Type} (lib : SearchLib Emb) (raw_query : String)
    (m : TextSearchModel Emb) : List Hit :=
  (semantic_search lib.dot (lib.normalize (m.bi_encoder [(filterStage raw_query m).1]))
    (narrowed_corpus raw_query m) m.top_k).headD []

/-- Stores the cross-encoder score of `(query, entries[hit['corpus_id']]['compiled'])`
on a hit (`hits[idx]['cross-score'] = cross_scores[idx]`). -/
def addCrossScore {Emb : Type} (raw_query : String)
    (m : TextSearchModel Emb) (h : Hit) : Hit :=
  { h with cross_score := some (m.cross_encoder (filterStage raw_query m).1
      (match (narrowed_entries raw_query m).get? h.corpus_id with
       | some e => e.compiled
       | none => "")) }

/-- `query(raw_query, model, rank_results)`: filter, retrieve, optionally
rerank, sort by bi-encoder score and (when reranking) re-sort by
cross-encoder score; returns the hits and the narrowed entries. -/
def query {Emb : Type} (lib : SearchLib Emb) (raw_query : String)
    (m : TextSearchModel Emb) (rank_results : Bool) : List Hit × List Entry :=
  if (narrowed_indices raw_query m).isEmpty then ([], [])
  else
    let entries := narrowed_entries raw_query m
    if entries.length = 0 then ([], [])
    else
      let hits0 := raw_hits lib raw_query m
      let hits1 := if rank_results then hits0.map (addCrossScore raw_query m) else hits0
      let hits2 := List.insertionSort scoreDescRel hits1
      let hits3 := if rank_results then List.insertionSort crossDescRel hits2 else hits2
      (hits3, entries)

/-- `compute_embeddings(entries, bi_encoder, embeddings_file, regenerate)`:
the embeddings file is modelled by its content (`none` when absent); the
result pairs the returned tensor with the file content afterwards. -/
def compute_embeddings {Emb : Type} (lib : SearchLib Emb) (entries : List Entry)
    (bi_encoder : List String → List Emb) (embeddings_file : Option (List Emb))
    (regenerate : Bool) : List Emb × Option (List Emb) :=
  match embeddings_file, regenerate with
  | some corpus_embeddings, false => (corpus_embeddings, some corpus_embeddings)
  | _, _ =>
    let corpus_embeddings :=
      lib.normalize (bi_encoder (entries.map (fun e => e.compiled)))
    (corpus_embeddings, some corpus_embeddings)

/-- The number of entries the spec's testable property predicts for one file:
`N` heading lines, plus one exactly when content precedes the first heading. -/
def claimedEntryCount (cs : List Char) : ℕ :=
  countHashLines cs + (if hasLeadingContent cs then 1 else 0)

/-- Index alignment of a query's result: each hit indexes the returned
entries list, and the entry returned at that position and the embedding row
scored there both come from one and the same original corpus index. -/
def hits_aligned {Emb : Type} (lib : SearchLib Emb) (q : String)
    (m : TextSearchModel Emb) (rank : Bool) : Prop :=
  ∀ hit ∈ (query lib q m rank).1, ∃ j,
    (narrowed_indices q m).get? hit.corpus_id = some j ∧
    hit.corpus_id < (query lib q m rank).2.length ∧
    (query lib q m rank).2.get? hit.corpus_id = m.entries.get? j ∧
    (narrowed_corpus q m).get? hit.corpus_id = m.corpus_embeddings.get? j

/-! ### Concrete fixtures used by the witness theorems -/

/-- A concrete embedding library over `ℤ` used to instantiate theorems. -/
def lib0 : SearchLib ℤ := { normalize := id, dot := (· * ·) }

/-- A concrete corpus entry. -/
def ent (s : String) : Entry := { compiled := s, raw := s, file := "f.md" }

/-- A concrete three-entry search model without filters. -/
def m0 : TextSearchModel ℤ :=
  { entries := [ent "a", ent "b", ent "c"]
    corpus_embeddings := [2, -1, 3]
    bi_encoder := fun _ => [1]
    cross_encoder := fun _ _ => 7
    filters := []
    top_k := 15 }

/-- A concrete file environment with a single readable Markdown file. -/
def env0 : FileEnv :=
  { abs_path := id
    glob := fun _ => []
    read := fun f => if f = "n.md" then some (("# A").data) else none
    gzip := id }

/-! ### Lemmas: Markdown splitting -/

theorem reSplitHashAux_snd_length :
    ∀ (cs : List Char) (ls : Bool), (reSplitHashAux ls cs).2.length = countHeadings ls cs := by
  intro cs
  induction cs with
  | nil => intro ls; rfl
  | cons c rest ih =>
    intro ls
    by_cases h : ls ∧ c = '#'
    · simp [reSplitHashAux, countHeadings, h, ih, Nat.add_comm]
    · simp [reSplitHashAux, countHeadings, h, ih]

theorem reSplitHash_length (ls : Bool) (cs : List Char) :
    (reSplitHash ls cs).length = countHeadings ls cs + 1 := by
  simp [reSplitHash, reSplitHashAux_snd_length]

theorem countHeadings_eq_hashLineCount :
    ∀ cs : List Char,
      countHeadings true cs = hashLineCount (linesOf cs) ∧
      countHeadings false cs = hashLineCount (linesAux cs).2 := by
  intro cs
  induction cs with
  | nil => simp [countHeadings, linesOf, linesAux, hashLineCount]
  | cons c rest ih =>
    have hnl : ('\n' : Char) ≠ '#' := by decide
    by_cases hn : c = '\n'
    · subst hn
      constructor
      · simpa [countHeadings, linesOf, linesAux, hashLineCount, hnl] using ih.1
      · simpa [countHeadings, linesAux, hnl, linesOf, hashLineCount] using ih.1
    · by_cases hh : c = '#'
      · subst hh
        have hne : ('#' : Char) ≠ '\n' := by decide
        constructor
        · simp [countHeadings, linesOf, linesAux, hashLineCount, hne, hn, ih.2,
            Nat.add_comm]
        · simp [countHeadings, linesOf, linesAux, hashLineCount, hne, hn, ih.2]
      · constructor
        · simp [countHeadings, linesOf, linesAux, hashLineCount, hn, hh, ih.2]
        · simp [countHeadings, linesOf, linesAux, hashLineCount, hn, hh, ih.2]

theorem markdownEntriesOfContent_length (content : List Char) :
    (markdownEntriesOfContent content).length = countHashLines content + 1 := by
  simp [markdownEntriesOfContent, reSplitHash_length, countHashLines,
    (countHeadings_eq_hashLineCount content).1]

theorem markdownEntriesOfContent_head (content : List Char) :
    ∀ e ∈ markdownEntriesOfContent content, e.head? = some '#' := by
  intro e he
  obtain ⟨seg, _, rfl⟩ := List.mem_map.mp he
  rfl

theorem extract_markdown_entries_fst :
    ∀ files : List (String × List Char),
      (extract_markdown_entries files).1
        = files.flatMap (fun pc => markdownEntriesOfContent pc.2) := by
  intro files
  induction files with
  | nil => rfl
  | cons pc rest ih => cases pc; simp [extract_markdown_entries, ih]

theorem extract_markdown_entries_snd :
    ∀ files : List (String × List Char),
      (extract_markdown_entries files).2
        = files.flatMap
            (fun pc => List.replicate (markdownEntriesOfContent pc.2).length pc.1) := by
  intro files
  induction files with
  | nil => rfl
  | cons pc rest ih => cases pc; simp [extract_markdown_entries, ih]

/-- **C2** (amended).  Splitting never merges the pre-heading segment away:
for every processed file set, the number of extracted entries is the sum,
over the files, of (number of lines beginning with `#`) + 1 — one entry per
heading line plus one for the (possibly empty) text before the first heading
— and every extracted entry starts with the character `#`. -/
theorem extract_markdown_entries_count_and_heads
    (files : List (String × List Char)) :
    (extract_markdown_entries files).1.length
        = (files.map (fun pc => countHashLines pc.2 + 1)).sum ∧
    ∀ e ∈ (extract_markdown_entries files).1, e.head? = some '#' := by
  constructor
  · rw [extract_markdown_entries_fst]
    induction files with
    | nil => rfl
    | cons pc rest ih => simp [ih, markdownEntriesOfContent_length]
  · intro e he
    rw [extract_markdown_entries_fst] at he
    obtain ⟨pc, _, hmem⟩ := List.mem_flatMap.mp he
    exact markdownEntriesOfContent_head pc.2 e hmem

/-- **C2** (counterexample).  The file content `"# A\n# B"` has `N = 2` lines
beginning with `#` and no content before its first heading, so the claim
predicts `N = 2` entries; the code produces 3 (the empty segment before the
first heading still becomes a bare `"#"` entry). -/
theorem extract_markdown_entries_counterexample :
    countHashLines (("# A\n# B").data) = 2 ∧
    hasLeadingContent (("# A\n# B").data) = false ∧
    claimedEntryCount (("# A\n# B").data) = 2 ∧
    (extract_markdown_entries [("notes.md", ("# A\n# B").data)]).1.length = 3 ∧
    ¬ ((extract_markdown_entries [("notes.md", ("# A\n# B").data)]).1.length
        = claimedEntryCount (("# A\n# B").data)) := by
  decide

/-! ### Lemmas: JSONL conversion -/

theorem convert_go :
    ∀ (es : List (List Char)) (k : ℕ) (m : List String) (acc : List Char),
      k + es.length ≤ m.length →
      (es.enumFrom k).foldlM
          (fun jsonl ie =>
            (m.get? ie.1).map (fun f => jsonl ++ dumps (entry_dict ie.2 f) ++ ['\n'])) acc
        = some (acc ++
            ((es.zip (m.drop k)).map
              (fun em => dumps (entry_dict em.1 em.2) ++ ['\n'])).flatten) := by
  intro es
  induction es with
  | nil => intro k m acc _; simp
  | cons e rest ih =>
    intro k m acc h
    have hk : k < m.length := by
      simp only [List.length_cons] at h
      omega
    have hget : m.get? k = some m[k] := by
      rw [List.get?_eq_getElem?]
      exact List.getElem?_eq_getElem hk
    have hdrop : m.drop k = m[k] :: m.drop (k + 1) := List.drop_eq_getElem_cons hk
    have h' : (k + 1) + rest.length ≤ m.length := by
      simp only [List.length_cons] at h; omega
    have ihx := ih (k + 1) m (acc ++ dumps (entry_dict e m[k]) ++ ['\n']) h'
    rw [List.enumFrom, List.foldlM_cons, hget]
    simp only [Option.map_some', Option.bind_eq_bind, Option.some_bind]
    rw [ihx, hdrop, List.zip_cons_cons, List.map_cons, List.flatten_cons]
    simp only [List.append_assoc, List.cons_append, List.nil_append]

theorem convert_eq_of_le (entries : List (List Char)) (m : List String)
    (h : entries.length ≤ m.length) :
    convert_markdown_entries_to_jsonl entries m
      = some (((entries.zip m).map
          (fun em => dumps (entry_dict em.1 em.2) ++ ['\n'])).flatten) := by
  have := convert_go entries 0 m [] (by simpa using h)
  simpa [convert_markdown_entries_to_jsonl, List.enum] using this

theorem zip_replicate_snd {α β : Type} (p : β) :
    ∀ l : List α, l.zip (List.replicate l.length p) = l.map (fun e => (e, p)) := by
  intro l
  induction l with
  | nil => rfl
  | cons a t ih => simp [List.replicate, ih]

theorem extract_markdown_entries_zip :
    ∀ files : List (String × List Char),
      (extract_markdown_entries files).1.zip (extract_markdown_entries files).2
        = files.flatMap
            (fun pc => (markdownEntriesOfContent pc.2).map (fun e => (e, pc.1))) := by
  intro files
  induction files with
  | nil => rfl
  | cons pc rest ih =>
    cases pc with
    | mk path content =>
      have hlen : (markdownEntriesOfContent content).length
          = (List.replicate (markdownEntriesOfContent content).length path).length := by
        simp
      simp only [extract_markdown_entries, List.flatMap_cons]
      rw [List.zip_append hlen, zip_replicate_snd, ih]

theorem extract_markdown_entries_length_eq :
    ∀ files : List (String × List Char),
      (extract_markdown_entries files).1.length = (extract_markdown_entries files).2.length := by
  intro files
  induction files with
  | nil => rfl
  | cons pc rest ih => cases pc; simp [extract_markdown_entries, ih]

/-- **C7**.  When the entry-to-file map covers the entries (as the one built
by extraction always does), conversion succeeds and yields exactly one
newline-terminated `json.dumps` record per entry, in entry order, each
serializing the three-field dictionary `compiled`/`raw`/`file`. -/
theorem convert_markdown_entries_to_jsonl_records
    (entries : List (List Char)) (entry_to_file_map : List String)
    (h : entry_to_file_map.length = entries.length) :
    convert_markdown_entries_to_jsonl entries entry_to_file_map
      = some (((entries.zip entry_to_file_map).map
          (fun em => dumps (entry_dict em.1 em.2) ++ ['\n'])).flatten) :=
  convert_eq_of_le entries entry_to_file_map (le_of_eq h.symm)

/-- Witness for C7 at a concrete two-entry input. -/
theorem convert_markdown_entries_to_jsonl_records_witness :
    convert_markdown_entries_to_jsonl [("#A").data, ("#B").data] ["a.md", "b.md"]
      = some ((([("#A").data, ("#B").data].zip ["a.md", "b.md"]).map
          (fun em => dumps (entry_dict em.1 em.2) ++ ['\n'])).flatten) :=
  convert_markdown_entries_to_jsonl_records [("#A").data, ("#B").data] ["a.md", "b.md"] rfl

/-- **C6**.  Converting the extraction of any file set succeeds, and the
emitted records are exactly the per-file entries, each serialized with the
`file` field holding the path of the source file it was extracted from. -/
theorem converted_records_keep_source_file (files : List (String × List Char)) :
    convert_markdown_entries_to_jsonl
        (extract_markdown_entries files).1 (extract_markdown_entries files).2
      = some ((files.flatMap
          (fun pc => (markdownEntriesOfContent pc.2).map
            (fun e => dumps (entry_dict e pc.1) ++ ['\n']))).flatten) := by
  rw [convert_eq_of_le _ _ (le_of_eq (extract_markdown_entries_length_eq files)),
    extract_markdown_entries_zip, List.map_flatMap]
  simp only [List.map_map]
  rfl

/-! ### Lemmas: converter entry point -/

theorem read_all_eq_some (env : FileEnv) :
    ∀ fs : List String, (∀ f ∈ fs, (env.read f).isSome) →
      read_all env fs = some (fs.map (fun f => (f, (env.read f).getD []))) := by
  intro fs
  induction fs with
  | nil => intro _; rfl
  | cons f rest ih =>
    intro h
    have hf : env.read f = some ((env.read f).getD []) := by
      rcases hs : env.read f with _ | c
      · exact absurd (hs ▸ h f (List.mem_cons_self f rest)) (by simp)
      · simp
    rw [read_all, List.mapM_cons]
    have hrest := ih (fun g hg => h g (List.mem_cons_of_mem f hg))
    rw [read_all] at hrest
    rw [hrest, hf]
    simp

/-- **C8**.  When both input options are absent or empty, the converter
aborts with exit status 1; this holds for every file environment and output
path, so no file is read and nothing is written. -/
theorem markdown_to_jsonl_exits_on_empty_input (env : FileEnv)
    (markdown_files : Option (List String)) (markdown_file_filter : Option String)
    (output_file : String)
    (hf : is_none_or_empty_files markdown_files = true)
    (hs : is_none_or_empty_str markdown_file_filter = true) :
    markdown_to_jsonl env markdown_files markdown_file_filter output_file
      = .error (.exitCode 1) := by
  simp [markdown_to_jsonl, hf, hs]

/-- Witness for C8: no files and no filter, under an arbitrary environment. -/
theorem markdown_to_jsonl_exits_on_empty_input_witness :
    markdown_to_jsonl env0 none none "notes.jsonl" = .error (.exitCode 1) :=
  markdown_to_jsonl_exits_on_empty_input env0 none none "notes.jsonl" rfl rfl

/-- **C10**.  An invocation that passes input validation and reads its files,
but whose output path has a suffix that is neither `.gz` nor `.jsonl`,
performs no write at all and still returns the extracted entries. -/
theorem markdown_to_jsonl_ignores_unknown_suffix (env : FileEnv)
    (markdown_files : Option (List String)) (markdown_file_filter : Option String)
    (output_file : String)
    (hinput : ¬(is_none_or_empty_files markdown_files = true
        ∧ is_none_or_empty_str markdown_file_filter = true))
    (hread : ∀ f ∈ get_markdown_files env markdown_files markdown_file_filter,
        (env.read f).isSome)
    (hgz : path_suffix output_file ≠ ".gz")
    (hjsonl : path_suffix output_file ≠ ".jsonl") :
    markdown_to_jsonl env markdown_files markdown_file_filter output_file
      = .ok ([],
          (extract_markdown_entries
            ((get_markdown_files env markdown_files markdown_file_filter).map
              (fun f => (f, (env.read f).getD [])))).1) := by
  have hra := read_all_eq_some env _ hread
  have hconv := convert_eq_of_le
    (extract_markdown_entries
      ((get_markdown_files env markdown_files markdown_file_filter).map
        (fun f => (f, (env.read f).getD [])))).1
    (extract_markdown_entries
      ((get_markdown_files env markdown_files markdown_file_filter).map
        (fun f => (f, (env.read f).getD [])))).2
    (le_of_eq (extract_markdown_entries_length_eq _))
  simp [markdown_to_jsonl, hinput, hra, hconv, hgz, hjsonl]

/-- Witness for C10: one readable file, output suffix `.txt`. -/
theorem markdown_to_jsonl_ignores_unknown_suffix_witness :
    markdown_to_jsonl env0 (some ["n.md"]) none "notes.txt"
      = .ok ([],
          (extract_markdown_entries
            ((get_markdown_files env0 (some ["n.md"]) none).map
              (fun f => (f, (env0.read f).getD [])))).1) :=
  markdown_to_jsonl_ignores_unknown_suffix env0 (some ["n.md"]) none "notes.txt"
    (by decide) (by decide) (by decide) (by decide)

/-! ### Lemmas: query filtering -/

theorem mem_applyFilters_snd (entries : List Entry) :
    ∀ (fs : List BaseFilter) (acc : String × List ℕ) (j : ℕ),
      j ∈ (applyFilters entries fs acc).2 → j ∈ acc.2 := by
  intro fs
  induction fs with
  | nil => intro acc j h; exact h
  | cons f rest ih =>
    intro acc j h
    have := ih _ j h
    exact List.mem_filter.mp this |>.1

theorem narrowed_indices_lt {Emb : Type} (q : String) (m : TextSearchModel Emb) :
    ∀ j ∈ narrowed_indices q m, j < m.entries.length := by
  intro j hj
  have := mem_applyFilters_snd m.entries _ _ j hj
  exact List.mem_range.mp this

theorem applyFilters_nil_of_nil (entries : List Entry) :
    ∀ (fs : List BaseFilter) (q : String),
      (applyFilters entries fs (q, ([] : List ℕ))).2 = [] := by
  intro fs q
  rw [List.eq_nil_iff_forall_not_mem]
  intro j hj
  simpa using mem_applyFilters_snd entries fs (q, []) j hj

/-- **C4**.  Querying a model with an empty corpus returns empty hit and
entry lists; this holds for every library, query and ranking flag, so
neither the bi-encoder nor the search step matters. -/
theorem query_empty_corpus {Emb : Type} (lib : SearchLib Emb) (raw_query : String)
    (m : TextSearchModel Emb) (rank_results : Bool) (h : m.entries = []) :
    query lib raw_query m rank_results = ([], []) := by
  have hni : narrowed_indices raw_query m = [] := by
    rw [narrowed_indices, filterStage, h]
    exact applyFilters_nil_of_nil [] _ raw_query
  simp [query, hni]

/-- Witness for C4 at a concrete model with no entries. -/
theorem query_empty_corpus_witness :
    query lib0 "hello" { m0 with entries := [] } true = ([], []) :=
  query_empty_corpus lib0 "hello" { m0 with entries := [] } true rfl

theorem applyFilters_no_filters (entries : List Entry) (acc : String × List ℕ) :
    applyFilters entries [] acc = acc := rfl

theorem filterMap_get?_range {α : Type} :
    ∀ l : List α, (List.range l.length).filterMap (fun i => l.get? i) = l := by
  intro l
  induction l with
  | nil => rfl
  | cons a t ih =>
    rw [List.length_cons, List.range_succ_eq_map, List.filterMap_cons,
      List.filterMap_map]
    have hcomp : ((fun i => (a :: t).get? i) ∘ Nat.succ) = fun i => t.get? i := rfl
    simp only [List.get?_cons_zero, hcomp, ih]

/-- **C3**.  When no filter applies to the query (in particular when the
model's filter list is empty), the candidate index set stays exactly
`0..len-1` and the query returns the full entry list unchanged, in order. -/
theorem query_no_applicable_filters {Emb : Type} (lib : SearchLib Emb)
    (raw_query : String) (m : TextSearchModel Emb) (rank_results : Bool)
    (hf : ∀ f ∈ m.filters, f.can_filter raw_query = false)
    (hne : m.entries ≠ []) :
    narrowed_indices raw_query m = List.range m.entries.length ∧
    (query lib raw_query m rank_results).2 = m.entries := by
  have hfs : m.filters.filter (fun f => f.can_filter raw_query) = [] := by
    rw [List.filter_eq_nil_iff]
    intro f hfm
    simp [hf f hfm]
  have hni : narrowed_indices raw_query m = List.range m.entries.length := by
    rw [narrowed_indices, filterStage, hfs, applyFilters_no_filters]
  have hent : narrowed_entries raw_query m = m.entries := by
    rw [narrowed_entries, hni, filterMap_get?_range]
  refine ⟨hni, ?_⟩
  have hpos : 0 < m.entries.length := List.length_pos.mpr hne
  have hie : (narrowed_indices raw_query m).isEmpty = false := by
    rw [hni]
    cases hl : m.entries.length with
    | zero => omega
    | succ n => simp [List.range_succ_eq_map]
  have hlz : ¬(narrowed_entries raw_query m).length = 0 := by
    rw [hent]
    omega
  simp [query, hie, hlz, hent, hne]

/-- Witness for C3 at a concrete filterless three-entry model. -/
theorem query_no_applicable_filters_witness :
    narrowed_indices "hello" m0 = List.range m0.entries.length ∧
    (query lib0 "hello" m0 true).2 = m0.entries :=
  query_no_applicable_filters lib0 "hello" m0 true
    (by intro f hfm; simp [m0] at hfm) (by decide)

/-! ### Lemmas: embedding cache -/

/-- **C5**.  With an existing embeddings file and `regenerate=False`, the
cached tensor is returned unchanged and untouched, for every bi-encoder (so
the encoder is never consulted); otherwise the entries' `compiled` texts are
encoded, normalized, persisted, and the freshly saved tensor is returned —
so an immediate reload yields the identical tensor. -/
theorem compute_embeddings_cache {Emb : Type} (lib : SearchLib Emb)
    (entries : List Entry) (bi_encoder : List String → List Emb)
    (t : List Emb) (embeddings_file : Option (List Emb)) (regenerate : Bool) :
    (embeddings_file = some t ∧ regenerate = false →
      compute_embeddings lib entries bi_encoder embeddings_file regenerate
        = (t, some t)) ∧
    (embeddings_file = none ∨ regenerate = true →
      compute_embeddings lib entries bi_encoder embeddings_file regenerate
        = (lib.normalize (bi_encoder (entries.map (fun e => e.compiled))),
           some (lib.normalize (bi_encoder (entries.map (fun e => e.compiled)))))) := by
  constructor
  · rintro ⟨rfl, rfl⟩
    rfl
  · rintro (rfl | rfl)
    · rfl
    · cases embeddings_file <;> rfl

/-- Witness for C5: a cache hit and a cache miss at a concrete input. -/
theorem compute_embeddings_cache_witness :
    compute_embeddings lib0 [ent "a"] (fun _ => [3]) (some [9]) false = ([9], some [9]) ∧
    compute_embeddings lib0 [ent "a"] (fun _ => [3]) none true
      = (lib0.normalize [3], some (lib0.normalize [3])) :=
  ⟨(compute_embeddings_cache lib0 [ent "a"] (fun _ => [3]) [9] (some [9]) false).1
      ⟨rfl, rfl⟩,
   (compute_embeddings_cache lib0 [ent "a"] (fun _ => [3]) [9] none true).2
      (Or.inl rfl)⟩

/-! ### Lemmas: hit sorting -/

theorem sorted_rankedRel_orderedInsert (a : Hit) :
    ∀ l : List Hit, List.Sorted rankedRel l → (∀ b ∈ l, b.score ≤ a.score) →
      List.Sorted rankedRel (List.orderedInsert crossDescRel a l)
  | [], _, _ => List.sorted_singleton a
  | b :: t, hs, ha => by
    by_cases h : crossDescRel a b
    · rw [List.orderedInsert, if_pos h]
      rw [List.sorted_cons]
      refine ⟨?_, hs⟩
      intro x hx
      rcases List.mem_cons.mp hx with rfl | hxt
      · exact ⟨h, fun _ => ha x (List.mem_cons_self x t)⟩
      · have hab : rankedRel a b := ⟨h, fun _ => ha b (List.mem_cons_self b t)⟩
        have hbx : rankedRel b x := (List.sorted_cons.mp hs).1 x hxt
        exact IsTrans.trans a b x hab hbx
    · rw [List.orderedInsert, if_neg h]
      rw [List.sorted_cons]
      constructor
      · intro x hx
        rcases (List.mem_orderedInsert crossDescRel).mp hx with rfl | hxt
        · have hba : crossKey x ≤ crossKey b := le_of_not_le h
          exact ⟨hba, fun hcon => absurd hcon h⟩
        · exact (List.sorted_cons.mp hs).1 x hxt
      · exact sorted_rankedRel_orderedInsert a t (List.sorted_cons.mp hs).2
          (fun x hxt => ha x (List.mem_cons_of_mem b hxt))

theorem sorted_rankedRel_insertionSort :
    ∀ l : List Hit, List.Sorted scoreDescRel l →
      List.Sorted rankedRel (List.insertionSort crossDescRel l)
  | [], _ => List.sorted_nil
  | a :: t, hs => by
    rw [List.insertionSort]
    refine sorted_rankedRel_orderedInsert a _
      (sorted_rankedRel_insertionSort t (List.sorted_cons.mp hs).2) ?_
    intro b hb
    have hbt : b ∈ t := (List.perm_insertionSort crossDescRel t).subset hb
    exact (List.sorted_cons.mp hs).1 b hbt

/-- **C1**.  The hits returned by `query` are sorted by descending bi-encoder
score when `rank_results` is false, and, when `rank_results` is true, by
descending cross-encoder score with ties in cross-encoder score ordered by
descending bi-encoder score (the bi-encoder sort runs first and the second
sort is stable). -/
theorem query_hits_sorted {Emb : Type} (lib : SearchLib Emb) (raw_query : String)
    (m : TextSearchModel Emb) :
    List.Sorted scoreDescRel (query lib raw_query m false).1 ∧
    List.Sorted rankedRel (query lib raw_query m true).1 := by
  constructor
  · cases hie : (narrowed_indices raw_query m).isEmpty
    · by_cases hlz : (narrowed_entries raw_query m).length = 0
      · simp [query, hie, hlz]
      · have : (query lib raw_query m false).1
            = List.insertionSort scoreDescRel (raw_hits lib raw_query m) := by
          simp [query, hie, hlz]
        rw [this]
        exact List.sorted_insertionSort scoreDescRel _
    · simp [query, hie]
  · cases hie : (narrowed_indices raw_query m).isEmpty
    · by_cases hlz : (narrowed_entries raw_query m).length = 0
      · simp [query, hie, hlz]
      · have : (query lib raw_query m true).1
            = List.insertionSort crossDescRel (List.insertionSort scoreDescRel
                ((raw_hits lib raw_query m).map (addCrossScore raw_query m))) := by
          simp [query, hie, hlz]
        rw [this]
        exact sorted_rankedRel_insertionSort _
          (List.sorted_insertionSort scoreDescRel _)
    · simp [query, hie]

/-! ### Lemmas: index alignment -/

theorem filterMap_get?_length {α : Type} (l : List α) :
    ∀ idxs : List ℕ, (∀ j ∈ idxs, j < l.length) →
      (idxs.filterMap (fun j => l.get? j)).length = idxs.length := by
  intro idxs
  induction idxs with
  | nil => intro _; rfl
  | cons j rest ih =>
    intro h
    have hj : j < l.length := h j (List.mem_cons_self j rest)
    rw [List.filterMap_cons, List.get?_eq_get hj]
    simp only [List.length_cons]
    rw [ih (fun i hi => h i (List.mem_cons_of_mem j hi))]

theorem filterMap_get?_get? {α : Type} (l : List α) :
    ∀ (idxs : List ℕ), (∀ j ∈ idxs, j < l.length) → ∀ i : ℕ,
      (idxs.filterMap (fun j => l.get? j)).get? i
        = (idxs.get? i).bind (fun j => l.get? j) := by
  intro idxs
  induction idxs with
  | nil => intro _ i; simp
  | cons j rest ih =>
    intro h i
    have hj : j < l.length := h j (List.mem_cons_self j rest)
    rw [List.filterMap_cons, List.get?_eq_get hj]
    cases i with
    | zero => simp [List.get?_eq_get hj]
    | succ i =>
      simp only [List.get?_cons_succ]
      exact ih (fun x hx => h x (List.mem_cons_of_mem j hx)) i

theorem query_main_branch {Emb : Type} (lib : SearchLib Emb) (raw_query : String)
    (m : TextSearchModel Emb) (rank_results : Bool)
    (hie : (narrowed_indices raw_query m).isEmpty = false)
    (hlz : ¬(narrowed_entries raw_query m).length = 0) :
    (query lib raw_query m rank_results).1
        = (if rank_results then
            List.insertionSort crossDescRel (List.insertionSort scoreDescRel
              ((raw_hits lib raw_query m).map (addCrossScore raw_query m)))
          else List.insertionSort scoreDescRel (raw_hits lib raw_query m)) ∧
    (query lib raw_query m rank_results).2 = narrowed_entries raw_query m := by
  cases rank_results <;> simp [query, hie, hlz]

theorem raw_hits_corpus_id_lt {Emb : Type} (lib : SearchLib Emb) (raw_query : String)
    (m : TextSearchModel Emb) :
    ∀ h ∈ raw_hits lib raw_query m, h.corpus_id < (narrowed_corpus raw_query m).length := by
  intro h hmem
  rw [raw_hits, semantic_search] at hmem
  rcases hq : lib.normalize (m.bi_encoder [(filterStage raw_query m).1]) with _ | ⟨q0, qs⟩
  · rw [hq] at hmem
    simp at hmem
  · rw [hq] at hmem
    simp only [List.map_cons, List.headD_cons] at hmem
    have h1 := List.mem_of_mem_take hmem
    have h2 := (List.perm_insertionSort scoreDescRel _).subset h1
    obtain ⟨ie, hie, rfl⟩ := List.mem_map.mp h2
    exact List.fst_lt_of_mem_enum hie

theorem query_hits_from_raw {Emb : Type} (lib : SearchLib Emb) (raw_query : String)
    (m : TextSearchModel Emb) (rank_results : Bool)
    (hie : (narrowed_indices raw_query m).isEmpty = false)
    (hlz : ¬(narrowed_entries raw_query m).length = 0) :
    ∀ h ∈ (query lib raw_query m rank_results).1,
      ∃ h0 ∈ raw_hits lib raw_query m, h.corpus_id = h0.corpus_id := by
  intro h hmem
  rw [(query_main_branch lib raw_query m rank_results hie hlz).1] at hmem
  cases rank_results with
  | false =>
    rw [if_neg (by simp)] at hmem
    exact ⟨h, (List.perm_insertionSort scoreDescRel _).subset hmem, rfl⟩
  | true =>
    rw [if_pos rfl] at hmem
    have h1 := (List.perm_insertionSort crossDescRel _).subset hmem
    have h2 := (List.perm_insertionSort scoreDescRel _).subset h1
    obtain ⟨h0, hh0, rfl⟩ := List.mem_map.mp h2
    exact ⟨h0, hh0, rfl⟩

/-- **C9**.  When the embedding tensor has one row per entry (the invariant
`setup` establishes), every returned hit indexes the returned entries list,
and the entry and the embedding row at that hit position stem from one and
the same original corpus index: the narrowed entries and the index-selected
embeddings are built from the same index sequence. -/
theorem query_hits_index_aligned {Emb : Type} (lib : SearchLib Emb)
    (raw_query : String) (m : TextSearchModel Emb) (rank_results : Bool)
    (hlen : m.corpus_embeddings.length = m.entries.length) :
    hits_aligned lib raw_query m rank_results := by
  intro hit hmem
  cases hie : (narrowed_indices raw_query m).isEmpty with
  | true =>
    rw [show query lib raw_query m rank_results = ([], []) by simp [query, hie]] at hmem
    simp at hmem
  | false =>
    by_cases hlz : (narrowed_entries raw_query m).length = 0
    · rw [show query lib raw_query m rank_results = ([], []) by simp [query, hie, hlz]] at hmem
      simp at hmem
    · have hqm := query_main_branch lib raw_query m rank_results hie hlz
      obtain ⟨h0, hh0, hcid⟩ :=
        query_hits_from_raw lib raw_query m rank_results hie hlz hit hmem
      have hsub : ∀ j ∈ narrowed_indices raw_query m, j < m.entries.length :=
        narrowed_indices_lt raw_query m
      have hsubc : ∀ j ∈ narrowed_indices raw_query m, j < m.corpus_embeddings.length :=
        fun j hj => hlen ▸ hsub j hj
      have hlc : (narrowed_corpus raw_query m).length
          = (narrowed_indices raw_query m).length :=
        filterMap_get?_length m.corpus_embeddings _ hsubc
      have hle : (narrowed_entries raw_query m).length
          = (narrowed_indices raw_query m).length :=
        filterMap_get?_length m.entries _ hsub
      have hcl : hit.corpus_id < (narrowed_indices raw_query m).length := by
        rw [hcid, ← hlc]
        exact raw_hits_corpus_id_lt lib raw_query m h0 hh0
      have hj : (narrowed_indices raw_query m).get? hit.corpus_id
          = some ((narrowed_indices raw_query m).get ⟨hit.corpus_id, hcl⟩) :=
        List.get?_eq_get hcl
      refine ⟨(narrowed_indices raw_query m).get ⟨hit.corpus_id, hcl⟩, hj, ?_, ?_, ?_⟩
      · rw [hqm.2, hle]
        exact hcl
      · rw [hqm.2, narrowed_entries, filterMap_get?_get? m.entries _ hsub, hj]
        rfl
      · rw [narrowed_corpus, filterMap_get?_get? m.corpus_embeddings _ hsubc, hj]
        rfl

/-- Witness for C9 at a concrete three-entry model with aligned embeddings. -/
theorem query_hits_index_aligned_witness : hits_aligned lib0 "world" m0 true :=
  query_hits_index_aligned lib0 "world" m0 true rfl

/-- Witness for the amended C2 at a concrete one-file input. -/
theorem extract_markdown_entries_count_and_heads_witness :
    (extract_markdown_entries [("w.md", ("intro\n# A").data)]).1.length
        = ([("w.md", ("intro\n# A").data)].map (fun pc => countHashLines pc.2 + 1)).sum ∧
    ∀ e ∈ (extract_markdown_entries [("w.md", ("intro\n# A").data)]).1,
      e.head? = some '#' :=
  extract_markdown_entries_count_and_heads [("w.md", ("intro\n# A").data)]
